import Mathlib

/-!
Verification of the `MemoryStore` component (`src/bot/memory.py`).

The sqlite-backed table `memories` is embedded as a list of rows kept in
insertion (rowid) order, together with the AUTOINCREMENT counter.  Each
public method of `MemoryStore` becomes a pure function from (arguments,
table) to (result, table).  SQL semantics are embedded explicitly:

* `ORDER BY c DESC` is a stable sort by the stated keys (relative order of
  ties is unspecified in SQL; the stable sort fixes one admissible order);
* `LIMIT n` with a negative `n` imposes no bound (sqlite semantics);
* `DELETE ... WHERE id IN (...)` filters the whole table by id;
* `MAX(id) ... GROUP BY ...` is the per-group maximum of identifiers;
* Python `str.strip` removes leading and trailing whitespace;
* Python `if kind:` is true only for a present, non-empty string.
-/

namespace MemoryBot

/-- A row of the `memories` table, as created by `MemoryStore.add`. -/
structure Row where
  id : Nat
  owner_id : Int
  kind : String
  content : String
  tags : String
  importance : Int
  created_at : Int
deriving Repr, DecidableEq

/-- The database: the `memories` table in rowid order plus the
AUTOINCREMENT state (`next_id` is the identifier the next insert gets;
deletes never lower it). -/
structure DB where
  rows : List Row
  next_id : Nat
deriving Repr, DecidableEq

/-- Python `str.strip()`: drop leading and trailing whitespace. -/
def strip (s : String) : String :=
  String.mk (((s.data.dropWhile Char.isWhitespace).reverse.dropWhile Char.isWhitespace).reverse)

/-- `MemoryStore.add`: insert one row with trimmed content and tags and the
current time, returning the fresh identifier (`cur.lastrowid`). -/
def add (owner_id : Int) (now : Int) (kind content tags : String) (importance : Int)
    (db : DB) : Nat × DB :=
  let r : Row :=
    { id := db.next_id, owner_id := owner_id, kind := kind,
      content := strip content, tags := strip tags,
      importance := importance, created_at := now }
  (db.next_id, { rows := db.rows ++ [r], next_id := db.next_id + 1 })

/-- The `WHERE owner_id=?` predicate. -/
def isOwner (A : Int) (r : Row) : Bool := r.owner_id == A

/-- The comparison behind `ORDER BY created_at DESC`. -/
def createdDesc (r s : Row) : Prop := s.created_at ≤ r.created_at

instance : DecidableRel createdDesc := fun r s =>
  inferInstanceAs (Decidable (s.created_at ≤ r.created_at))

instance : IsTotal Row createdDesc :=
  ⟨fun r s => Int.le_total s.created_at r.created_at⟩

instance : IsTrans Row createdDesc :=
  ⟨fun _ _ _ hab hbc => le_trans hbc hab⟩

/-- The row list produced by `MemoryStore.latest`, before projection:
owner-scoped rows ordered by `created_at DESC`, truncated by `LIMIT`
(a negative limit means no bound, as in sqlite). -/
def latestRows (A : Int) (lim : Int) (t : List Row) : List Row :=
  let s := List.insertionSort createdDesc (t.filter (isOwner A))
  if lim < 0 then s else s.take lim.toNat

/-- `MemoryStore.latest`: the `SELECT id, kind, content, importance` projection. -/
def latest (A : Int) (lim : Int) (t : List Row) : List (Nat × String × String × Int) :=
  (latestRows A lim t).map (fun r => (r.id, r.kind, r.content, r.importance))

/-- One line of `MemoryStore.format_context`. -/
def renderLine : Nat × String × String × Int → String
  | (_, kind, content, imp) => s!"- [{kind}][imp:{imp}] {content}"

/-- `MemoryStore.format_context`: the empty string when `latest` is empty,
else the rendered lines joined with newlines. -/
def format_context (A : Int) (lim : Int) (t : List Row) : String :=
  let rows := latest A lim t
  if rows.isEmpty then ""
  else String.intercalate "\n" (rows.map renderLine)

/-- `MemoryStore.has_profile`: does a row with this owner and kind exactly
`'profile'` exist? -/
def has_profile (A : Int) (t : List Row) : Bool :=
  t.any (fun r => isOwner A r && r.kind == "profile")

/-- The `WHERE owner_id=? AND kind='profile'` predicate. -/
def isProfileOf (A : Int) (r : Row) : Bool := isOwner A r && r.kind == "profile"

/-- The comparison behind `ORDER BY importance DESC, created_at DESC`. -/
def profOrder (r s : Row) : Prop :=
  s.importance < r.importance ∨
    (r.importance = s.importance ∧ s.created_at ≤ r.created_at)

instance : DecidableRel profOrder := fun r s => by
  unfold profOrder; exact inferInstance

instance : IsTotal Row profOrder :=
  ⟨fun r s => by unfold profOrder; omega⟩

instance : IsTrans Row profOrder :=
  ⟨fun _ _ _ hab hbc => by unfold profOrder at *; omega⟩

/-- The cursor of `dedupe_profiles`: this owner's profile rows ordered by
importance descending then created_at descending. -/
def sortedProfiles (A : Int) (t : List Row) : List Row :=
  List.insertionSort profOrder (t.filter (isProfileOf A))

/-- The dedup key of `dedupe_profiles`: `(content or "").strip()`. -/
def keyOf (r : Row) : String := strip r.content

/-- The first-seen-wins walk of `dedupe_profiles`: rows whose key was
already seen go to the delete list, the rest to the keep list. -/
def dedupeWalk : List Row → List String → List Row × List Row
  | [], _ => ([], [])
  | r :: rs, seen =>
    if keyOf r ∈ seen then
      let p := dedupeWalk rs seen
      (p.1, r :: p.2)
    else
      let p := dedupeWalk rs (keyOf r :: seen)
      (r :: p.1, p.2)

/-- `MemoryStore.dedupe_profiles`: walk the sorted profile rows, then
`DELETE FROM memories WHERE id IN (delete_ids)` (note: the delete is by id
over the whole table), returning `(kept, deleted)` counts and the table. -/
def dedupe_profiles (A : Int) (t : List Row) : (Nat × Nat) × List Row :=
  let p := dedupeWalk (sortedProfiles A t) []
  let deleteIds := p.2.map Row.id
  ((p.1.length, p.2.length), t.filter (fun r => !(deleteIds.contains r.id)))

/-- `MemoryStore.delete_profiles`: delete all of this owner's profile rows,
returning `cur.rowcount`. -/
def delete_profiles (A : Int) (t : List Row) : Nat × List Row :=
  ((t.filter (isProfileOf A)).length, t.filter (fun r => !(isProfileOf A r)))

/-- The full dedup key of `delete_duplicates` (owner_id is fixed by the
surrounding `WHERE`, so grouping by `owner_id, kind, content, tags` within
one owner reduces to this triple). -/
def dupKey (r : Row) : String × String × String := (r.kind, r.content, r.tags)

/-- `SELECT MAX(id) ... GROUP BY owner_id, kind, content, tags` over an
already scoped row set: one maximal identifier per distinct key. -/
def groupMaxIds (rs : List Row) : List Nat :=
  ((rs.map dupKey).dedup).map
    (fun k => ((rs.filter (fun s => dupKey s == k)).map Row.id).foldl max 0)

/-- The row scope of `delete_duplicates`: Python `if kind:` treats a
missing and an empty-string kind alike (owner scope only); a non-empty
kind additionally requires `kind = ?`. -/
def dupScope (A : Int) (kindArg : Option String) : Row → Bool :=
  match kindArg with
  | some k => if k = "" then isOwner A else fun r => isOwner A r && r.kind == k
  | none => isOwner A

/-- `MemoryStore.delete_duplicates`: delete every scoped row whose id is
not one of the per-group maxima, returning `cur.rowcount`. -/
def delete_duplicates (A : Int) (kindArg : Option String) (t : List Row) : Nat × List Row :=
  let inScope := dupScope A kindArg
  let keepIds := groupMaxIds (t.filter inScope)
  let doomed : Row → Bool := fun r => inScope r && !(keepIds.contains r.id)
  ((t.filter doomed).length, t.filter (fun r => !(doomed r)))

/-- `MemoryStore.delete_exact`: delete every row of this owner matching the
given kind and content exactly (the arguments are not trimmed), returning
`cur.rowcount`. -/
def delete_exact (A : Int) (kind content : String) (t : List Row) : Nat × List Row :=
  let hit : Row → Bool := fun r => isOwner A r && r.kind == kind && r.content == content
  ((t.filter hit).length, t.filter (fun r => !(hit r)))

/-- The AUTOINCREMENT invariant: every stored identifier is below the
counter.  It holds for every table reachable through the store (inserts
use the counter and bump it; deletes only remove rows). -/
def GoodDB (db : DB) : Prop := ∀ r ∈ db.rows, r.id < db.next_id

/-! Concrete tables used by the scenario clauses of the claims. -/

/-- Scenario row A: profile "likes tea", importance 2. -/
def exA : Row := ⟨1, 1, "profile", "likes tea", "", 2, 100⟩

/-- Scenario row B: profile "likes tea", importance 5. -/
def exB : Row := ⟨2, 1, "profile", "likes tea", "", 5, 101⟩

/-- Scenario row C: profile "likes coffee", importance 1. -/
def exC : Row := ⟨3, 1, "profile", "likes coffee", "", 1, 102⟩

/-- Scenario rows for `delete_duplicates`: three identical notes. -/
def noteRow (i : Nat) : Row := ⟨i, 1, "note", "x", "", 3, 99 + i⟩

/-- Scenario rows for `delete_exact`. -/
def helloRow (i : Nat) : Row := ⟨i, 1, "note", "hello", "", 3, 99 + i⟩

/-- Scenario row for `delete_exact`: the row that must survive. -/
def worldRow : Row := ⟨3, 1, "note", "world", "", 3, 102⟩

/-! Helper lemmas about the first-seen-wins walk of `dedupe_profiles`. -/

/-- `profOrder` is reflexive. -/
theorem profOrder_refl (r : Row) : profOrder r r :=
  Or.inr ⟨rfl, le_refl _⟩

/-- The keep and delete lists of the walk partition the input. -/
theorem dedupeWalk_append_perm (l : List Row) (seen : List String) :
    ((dedupeWalk l seen).1 ++ (dedupeWalk l seen).2).Perm l := by
  induction l generalizing seen with
  | nil => simp [dedupeWalk]
  | cons r rs ih =>
    by_cases h : keyOf r ∈ seen
    · simpa [dedupeWalk, h] using (List.perm_middle.trans ((ih seen).cons r))
    · simpa [dedupeWalk, h] using ((ih (keyOf r :: seen)).cons r)

/-- Kept rows come from the input. -/
theorem dedupeWalk_keep_mem {l : List Row} {seen : List String} {r : Row}
    (h : r ∈ (dedupeWalk l seen).1) : r ∈ l :=
  (dedupeWalk_append_perm l seen).mem_iff.mp (List.mem_append.mpr (Or.inl h))

/-- Deleted rows come from the input. -/
theorem dedupeWalk_delete_mem {l : List Row} {seen : List String} {r : Row}
    (h : r ∈ (dedupeWalk l seen).2) : r ∈ l :=
  (dedupeWalk_append_perm l seen).mem_iff.mp (List.mem_append.mpr (Or.inr h))

/-- A kept row's key was not among the seen keys. -/
theorem dedupeWalk_keep_not_seen {l : List Row} {seen : List String} {r : Row}
    (h : r ∈ (dedupeWalk l seen).1) : keyOf r ∉ seen := by
  induction l generalizing seen with
  | nil => simp [dedupeWalk] at h
  | cons x rs ih =>
    by_cases hx : keyOf x ∈ seen
    · simp only [dedupeWalk, if_pos hx] at h
      exact ih h
    · simp only [dedupeWalk, if_neg hx] at h
      rcases List.mem_cons.mp h with hrx | hr
      · subst hrx; exact hx
      · intro hseen
        exact ih hr (List.mem_cons_of_mem _ hseen)

/-- On a list sorted by `profOrder`, every kept row dominates every input
row that shares its dedup key. -/
theorem dedupeWalk_keep_max {l : List Row} (hs : l.Pairwise profOrder)
    {seen : List String} {r : Row} (hr : r ∈ (dedupeWalk l seen).1)
    {s : Row} (hsl : s ∈ l) (hkey : keyOf s = keyOf r) : profOrder r s := by
  induction l generalizing seen with
  | nil => simp at hsl
  | cons x rs ih =>
    rcases List.pairwise_cons.mp hs with ⟨hx, hrs⟩
    by_cases hmem : keyOf x ∈ seen
    · simp only [dedupeWalk, if_pos hmem] at hr
      rcases List.mem_cons.mp hsl with hsx | hs2
      · exfalso
        apply dedupeWalk_keep_not_seen hr
        rw [← hkey, hsx]
        exact hmem
      · exact ih hrs hr hs2
    · simp only [dedupeWalk, if_neg hmem] at hr
      rcases List.mem_cons.mp hr with hrx | hr2
      · subst hrx
        rcases List.mem_cons.mp hsl with hsx | hs2
        · subst hsx; exact profOrder_refl s
        · exact hx s hs2
      · rcases List.mem_cons.mp hsl with hsx | hs2
        · exfalso
          apply dedupeWalk_keep_not_seen hr2
          rw [← hkey, hsx]
          exact List.mem_cons_self _ _
        · exact ih hrs hr2 hs2

/-- The kept rows carry pairwise distinct dedup keys. -/
theorem dedupeWalk_keep_keys_nodup (l : List Row) (seen : List String) :
    ((dedupeWalk l seen).1.map keyOf).Nodup := by
  induction l generalizing seen with
  | nil => simp [dedupeWalk]
  | cons x rs ih =>
    by_cases hx : keyOf x ∈ seen
    · simpa only [dedupeWalk, if_pos hx] using ih seen
    · simp only [dedupeWalk, if_neg hx, List.map_cons, List.nodup_cons]
      refine ⟨?_, ih (keyOf x :: seen)⟩
      intro hmem
      rcases List.mem_map.mp hmem with ⟨r, hr, hkr⟩
      exact dedupeWalk_keep_not_seen hr (hkr ▸ List.mem_cons_self _ _)

/-- Every input row's key is either already seen or represented among the
kept rows. -/
theorem dedupeWalk_keep_covers (l : List Row) (seen : List String) :
    ∀ s ∈ l, keyOf s ∈ seen ∨ ∃ r ∈ (dedupeWalk l seen).1, keyOf r = keyOf s := by
  induction l generalizing seen with
  | nil => simp
  | cons x rs ih =>
    intro s hsl
    by_cases hx : keyOf x ∈ seen
    · simp only [dedupeWalk, if_pos hx]
      rcases List.mem_cons.mp hsl with hsx | hs2
      · subst hsx; exact Or.inl hx
      · exact ih seen s hs2
    · simp only [dedupeWalk, if_neg hx]
      rcases List.mem_cons.mp hsl with hsx | hs2
      · subst hsx
        exact Or.inr ⟨s, List.mem_cons_self _ _, rfl⟩
      · rcases ih (keyOf x :: seen) s hs2 with hseen | ⟨r, hr, hkr⟩
        · rcases List.mem_cons.mp hseen with heq | hseen2
          · exact Or.inr ⟨x, List.mem_cons_self _ _, heq.symm⟩
          · exact Or.inl hseen2
        · exact Or.inr ⟨r, List.mem_cons_of_mem _ hr, hkr⟩

/-- When the input keys are pairwise distinct and unseen, the walk keeps
everything and deletes nothing. -/
theorem dedupeWalk_keeps_all {l : List Row} (h : (l.map keyOf).Nodup)
    (seen : List String) (h2 : ∀ r ∈ l, keyOf r ∉ seen) :
    dedupeWalk l seen = (l, []) := by
  induction l generalizing seen with
  | nil => simp [dedupeWalk]
  | cons x rs ih =>
    have hx : keyOf x ∉ seen := h2 x (List.mem_cons_self _ _)
    simp only [dedupeWalk, if_neg hx]
    rw [List.map_cons] at h
    rcases List.nodup_cons.mp h with ⟨hxk, hrs⟩
    rw [ih hrs (keyOf x :: seen) ?_]
    intro r hr hmem
    rcases List.mem_cons.mp hmem with heq | hseen
    · exact hxk (heq ▸ List.mem_map_of_mem keyOf hr)
    · exact h2 r (List.mem_cons_of_mem _ hr) hseen

/-- The number of kept rows is the number of distinct dedup keys. -/
theorem dedupeWalk_keep_count (l : List Row) :
    (dedupeWalk l []).1.length = ((l.map keyOf).toFinset).card := by
  have hnd := dedupeWalk_keep_keys_nodup l []
  have hlen : (dedupeWalk l []).1.length = ((dedupeWalk l []).1.map keyOf).length :=
    (List.length_map _ _).symm
  rw [hlen, ← List.toFinset_card_of_nodup hnd]
  congr 1
  apply Finset.ext
  intro k
  simp only [List.mem_toFinset, List.mem_map]
  constructor
  · rintro ⟨r, hr, rfl⟩
    exact ⟨r, dedupeWalk_keep_mem hr, rfl⟩
  · rintro ⟨s, hs, rfl⟩
    rcases dedupeWalk_keep_covers l [] s hs with hseen | ⟨r, hr, hkr⟩
    · simp at hseen
    · exact ⟨r, hr, hkr⟩

/-! Helper lemmas tying the walk to `dedupe_profiles` on a table whose
identifiers are pairwise distinct (the invariant sqlite guarantees). -/

/-- `sortedProfiles` is a permutation of the owner's profile rows. -/
theorem sortedProfiles_perm (A : Int) (t : List Row) :
    (sortedProfiles A t).Perm (t.filter (isProfileOf A)) :=
  List.perm_insertionSort _ _

/-- `sortedProfiles` is pairwise ordered by `profOrder`. -/
theorem sortedProfiles_pairwise (A : Int) (t : List Row) :
    (sortedProfiles A t).Pairwise profOrder :=
  List.sorted_insertionSort _ _

/-- Distinct list entries with a duplicate-free image are injectively
mapped; specialised to row identifiers. -/
theorem nodup_id_inj {t : List Row} (h : (t.map Row.id).Nodup) {r s : Row}
    (hr : r ∈ t) (hs : s ∈ t) (hid : r.id = s.id) : r = s :=
  List.inj_on_of_nodup_map h hr hs hid

/-- Rows of `sortedProfiles` belong to the table. -/
theorem sortedProfiles_subset {A : Int} {t : List Row} {r : Row}
    (h : r ∈ sortedProfiles A t) : r ∈ t :=
  (List.mem_filter.mp ((sortedProfiles_perm A t).mem_iff.mp h)).1

/-- Rows of `sortedProfiles` satisfy the profile predicate. -/
theorem sortedProfiles_profile {A : Int} {t : List Row} {r : Row}
    (h : r ∈ sortedProfiles A t) : isProfileOf A r = true :=
  (List.mem_filter.mp ((sortedProfiles_perm A t).mem_iff.mp h)).2

/-- The identifiers of `sortedProfiles` inherit distinctness from the table. -/
theorem sortedProfiles_ids_nodup {A : Int} {t : List Row}
    (hids : (t.map Row.id).Nodup) :
    ((sortedProfiles A t).map Row.id).Nodup := by
  have hsub : ((t.filter (isProfileOf A)).map Row.id).Sublist (t.map Row.id) :=
    (List.filter_sublist t).map Row.id
  exact ((sortedProfiles_perm A t).map Row.id).nodup_iff.mpr (hids.sublist hsub)

/-- Under distinct identifiers, membership in the table produced by
`dedupe_profiles` is exactly "not on the delete list". -/
theorem dedupe_profiles_mem_iff {A : Int} {t : List Row}
    (hids : (t.map Row.id).Nodup) {r : Row} (hr : r ∈ t) :
    (r ∈ (dedupe_profiles A t).2 ↔ r ∉ (dedupeWalk (sortedProfiles A t) []).2) := by
  unfold dedupe_profiles
  simp only [List.mem_filter, List.contains, List.elem_eq_mem, Bool.not_eq_eq_eq_not,
    Bool.not_true, decide_eq_false_iff_not, List.mem_map]
  constructor
  · rintro ⟨-, hno⟩ hdel
    exact hno ⟨r, hdel, rfl⟩
  · intro hnd
    refine ⟨hr, ?_⟩
    rintro ⟨s, hs, hsid⟩
    exact hnd (nodup_id_inj hids (sortedProfiles_subset (dedupeWalk_delete_mem hs)) hr hsid ▸ hs)

/-- Under distinct identifiers, the kept and deleted rows of the walk share
no row (they carry disjoint identifiers). -/
theorem dedupe_keep_delete_disjoint {A : Int} {t : List Row}
    (hids : (t.map Row.id).Nodup) {r : Row}
    (hk : r ∈ (dedupeWalk (sortedProfiles A t) []).1) :
    r ∉ (dedupeWalk (sortedProfiles A t) []).2 := by
  intro hd
  have hperm := (dedupeWalk_append_perm (sortedProfiles A t) []).map Row.id
  have hnd : (((dedupeWalk (sortedProfiles A t) []).1 ++
      (dedupeWalk (sortedProfiles A t) []).2).map Row.id).Nodup :=
    hperm.nodup_iff.mpr (sortedProfiles_ids_nodup hids)
  rw [List.map_append] at hnd
  exact (List.disjoint_of_nodup_append hnd) (List.mem_map_of_mem Row.id hk)
    (List.mem_map_of_mem Row.id hd)

/-- Claim C1: for every owner state, `dedupe_profiles` considers only the
current owner's rows of kind `profile`, groups them by exact trimmed
content (ignoring tags and importance), keeps per distinct content exactly
one row — of maximal importance, and among equal importance of maximal
`created_at` — deletes the other rows of each group, and returns (distinct
contents kept, rows deleted); in particular the tea/coffee scenario
returns `(2, 1)` and the surviving "likes tea" row is B. -/
theorem claim_C1_dedupe_profiles (t : List Row) (A : Int)
    (hids : (t.map Row.id).Nodup) :
    dedupe_profiles 1 [exA, exB, exC] = ((2, 1), [exB, exC])
    ∧ (dedupe_profiles A t).1.1 = (((t.filter (isProfileOf A)).map keyOf).toFinset).card
    ∧ (dedupe_profiles A t).1.1 + (dedupe_profiles A t).1.2
        = (t.filter (isProfileOf A)).length
    ∧ (∀ r ∈ t, isProfileOf A r = false → r ∈ (dedupe_profiles A t).2)
    ∧ (∀ r ∈ (dedupe_profiles A t).2, r ∈ t)
    ∧ (∀ r ∈ (dedupe_profiles A t).2, isProfileOf A r = true →
        ∀ s ∈ t, isProfileOf A s = true → keyOf s = keyOf r →
          s.importance ≤ r.importance ∧
            (s.importance = r.importance → s.created_at ≤ r.created_at))
    ∧ (∀ r ∈ (dedupe_profiles A t).2, ∀ s ∈ (dedupe_profiles A t).2,
        isProfileOf A r = true → isProfileOf A s = true → keyOf r = keyOf s → r = s)
    ∧ (∀ s ∈ t, isProfileOf A s = true →
        ∃ r ∈ (dedupe_profiles A t).2, isProfileOf A r = true ∧ keyOf r = keyOf s) := by
  have hres1 : (dedupe_profiles A t).1
      = ((dedupeWalk (sortedProfiles A t) []).1.length,
         (dedupeWalk (sortedProfiles A t) []).2.length) := rfl
  have hkeep_of_mem : ∀ r ∈ (dedupe_profiles A t).2, isProfileOf A r = true →
      r ∈ (dedupeWalk (sortedProfiles A t) []).1 := by
    intro r hr hprof
    have hrt : r ∈ t := (List.mem_filter.mp hr).1
    have hrS : r ∈ sortedProfiles A t :=
      (sortedProfiles_perm A t).mem_iff.mpr (List.mem_filter.mpr ⟨hrt, hprof⟩)
    have hnotdel : r ∉ (dedupeWalk (sortedProfiles A t) []).2 :=
      (dedupe_profiles_mem_iff hids hrt).mp hr
    have := (dedupeWalk_append_perm (sortedProfiles A t) []).mem_iff.mpr hrS
    rcases List.mem_append.mp this with hk | hd
    · exact hk
    · exact absurd hd hnotdel
  refine ⟨by decide, ?_, ?_, ?_, ?_, ?_, ?_, ?_⟩
  · rw [hres1]
    rw [dedupeWalk_keep_count]
    exact congrArg Finset.card
      (List.toFinset_eq_of_perm _ _ ((sortedProfiles_perm A t).map keyOf))
  · rw [hres1]
    have h1 := (dedupeWalk_append_perm (sortedProfiles A t) []).length_eq
    rw [List.length_append] at h1
    rw [h1]
    exact (sortedProfiles_perm A t).length_eq
  · intro r hrt hnp
    refine (dedupe_profiles_mem_iff hids hrt).mpr ?_
    intro hdel
    have := sortedProfiles_profile (dedupeWalk_delete_mem hdel)
    rw [hnp] at this
    exact Bool.false_ne_true this
  · intro r hr
    exact (List.mem_filter.mp hr).1
  · intro r hr hprof s hst hsprof hkey
    have hk := hkeep_of_mem r hr hprof
    have hsS : s ∈ sortedProfiles A t :=
      (sortedProfiles_perm A t).mem_iff.mpr (List.mem_filter.mpr ⟨hst, hsprof⟩)
    have hord := dedupeWalk_keep_max (sortedProfiles_pairwise A t) hk hsS hkey
    unfold profOrder at hord
    constructor
    · omega
    · intro h
      omega
  · intro r hr s hs hrprof hsprof hkey
    exact List.inj_on_of_nodup_map
      (dedupeWalk_keep_keys_nodup (sortedProfiles A t) [])
      (hkeep_of_mem r hr hrprof) (hkeep_of_mem s hs hsprof) hkey
  · intro s hst hsprof
    have hsS : s ∈ sortedProfiles A t :=
      (sortedProfiles_perm A t).mem_iff.mpr (List.mem_filter.mpr ⟨hst, hsprof⟩)
    rcases dedupeWalk_keep_covers (sortedProfiles A t) [] s hsS with hseen | ⟨r, hrk, hkr⟩
    · simp at hseen
    · have hrS : r ∈ sortedProfiles A t := dedupeWalk_keep_mem hrk
      have hrt : r ∈ t := sortedProfiles_subset hrS
      refine ⟨r, ?_, sortedProfiles_profile hrS, hkr⟩
      exact (dedupe_profiles_mem_iff hids hrt).mpr (dedupe_keep_delete_disjoint hids hrk)

/-- Witness for C1: the hypothesis holds and the tea/coffee scenario
computes as claimed on the three-row table. -/
theorem claim_C1_witness :
    (([exA, exB, exC].map Row.id).Nodup)
    ∧ dedupe_profiles 1 [exA, exB, exC] = ((2, 1), [exB, exC]) :=
  ⟨by decide, (claim_C1_dedupe_profiles [exA, exB, exC] 1 (by decide)).1⟩

/-- Under distinct identifiers, the owner's profile rows that survive
`dedupe_profiles` are exactly (up to order) the walk's keep list. -/
theorem dedupe_profiles_survivors_perm (A : Int) (t : List Row)
    (hids : (t.map Row.id).Nodup) :
    ((dedupe_profiles A t).2.filter (isProfileOf A)).Perm
      (dedupeWalk (sortedProfiles A t) []).1 := by
  have hres2 : (dedupe_profiles A t).2
      = t.filter (fun r =>
          !(((dedupeWalk (sortedProfiles A t) []).2.map Row.id).contains r.id)) := rfl
  rw [hres2, List.filter_filter]
  have hcomm : t.filter (fun r => isProfileOf A r &&
        !(((dedupeWalk (sortedProfiles A t) []).2.map Row.id).contains r.id))
      = (t.filter (isProfileOf A)).filter (fun r =>
          !(((dedupeWalk (sortedProfiles A t) []).2.map Row.id).contains r.id)) := by
    rw [List.filter_filter]
    exact List.filter_congr (fun r _ => Bool.and_comm _ _)
  rw [hcomm]
  have hstep : ((t.filter (isProfileOf A)).filter (fun r =>
        !(((dedupeWalk (sortedProfiles A t) []).2.map Row.id).contains r.id))).Perm
      (((dedupeWalk (sortedProfiles A t) []).1 ++
        (dedupeWalk (sortedProfiles A t) []).2).filter (fun r =>
          !(((dedupeWalk (sortedProfiles A t) []).2.map Row.id).contains r.id))) :=
    List.Perm.filter _ ((sortedProfiles_perm A t).symm.trans
      (dedupeWalk_append_perm (sortedProfiles A t) []).symm)
  refine hstep.trans ?_
  rw [List.filter_append]
  have hkeep : ((dedupeWalk (sortedProfiles A t) []).1).filter (fun r =>
      !(((dedupeWalk (sortedProfiles A t) []).2.map Row.id).contains r.id))
      = (dedupeWalk (sortedProfiles A t) []).1 := by
    rw [List.filter_eq_self]
    intro r hr
    have hnot : r.id ∉ (dedupeWalk (sortedProfiles A t) []).2.map Row.id := by
      intro hmem
      rcases List.mem_map.mp hmem with ⟨s, hs, hsid⟩
      have hseq : s = r := nodup_id_inj hids
        (sortedProfiles_subset (dedupeWalk_delete_mem hs))
        (sortedProfiles_subset (dedupeWalk_keep_mem hr)) hsid
      exact dedupe_keep_delete_disjoint hids hr (hseq ▸ hs)
    simp [List.contains, List.elem_eq_mem, hnot]
  have hdel : ((dedupeWalk (sortedProfiles A t) []).2).filter (fun r =>
      !(((dedupeWalk (sortedProfiles A t) []).2.map Row.id).contains r.id)) = [] := by
    rw [List.filter_eq_nil_iff]
    intro r hr
    have hmem : r.id ∈ (dedupeWalk (sortedProfiles A t) []).2.map Row.id :=
      List.mem_map_of_mem Row.id hr
    simp [List.contains, List.elem_eq_mem, hmem]
  rw [hkeep, hdel, List.append_nil]

/-- Claim C3: `dedupe_profiles` is idempotent — the second of two
consecutive calls deletes zero rows, reports as kept the number of rows
that survived the first call, and leaves the table unchanged. -/
theorem claim_C3_dedupe_profiles_idempotent (t : List Row) (A : Int)
    (hids : (t.map Row.id).Nodup) :
    (dedupe_profiles A (dedupe_profiles A t).2).1.2 = 0
    ∧ (dedupe_profiles A (dedupe_profiles A t).2).1.1 = (dedupe_profiles A t).1.1
    ∧ (dedupe_profiles A (dedupe_profiles A t).2).1.1
        = ((dedupe_profiles A t).2.filter (isProfileOf A)).length
    ∧ (dedupe_profiles A (dedupe_profiles A t).2).2 = (dedupe_profiles A t).2 := by
  have hperm := dedupe_profiles_survivors_perm A t hids
  have hS2 : (sortedProfiles A (dedupe_profiles A t).2).Perm
      (dedupeWalk (sortedProfiles A t) []).1 :=
    (sortedProfiles_perm A (dedupe_profiles A t).2).trans hperm
  have hkeys : ((sortedProfiles A (dedupe_profiles A t).2).map keyOf).Nodup :=
    ((hS2.map keyOf).nodup_iff).mpr (dedupeWalk_keep_keys_nodup (sortedProfiles A t) [])
  have hwalk2 : dedupeWalk (sortedProfiles A (dedupe_profiles A t).2) []
      = (sortedProfiles A (dedupe_profiles A t).2, []) :=
    dedupeWalk_keeps_all hkeys [] (by simp)
  have hres1 : (dedupe_profiles A (dedupe_profiles A t).2).1
      = ((dedupeWalk (sortedProfiles A (dedupe_profiles A t).2) []).1.length,
         (dedupeWalk (sortedProfiles A (dedupe_profiles A t).2) []).2.length) := rfl
  have hres2 : (dedupe_profiles A (dedupe_profiles A t).2).2
      = (dedupe_profiles A t).2.filter (fun r =>
          !(((dedupeWalk (sortedProfiles A (dedupe_profiles A t).2) []).2.map
              Row.id).contains r.id)) := rfl
  have hfirst1 : (dedupe_profiles A t).1.1
      = (dedupeWalk (sortedProfiles A t) []).1.length := rfl
  refine ⟨?_, ?_, ?_, ?_⟩
  · rw [hres1, hwalk2]
    rfl
  · rw [hres1, hwalk2, hfirst1]
    exact hS2.length_eq
  · rw [hres1, hwalk2]
    exact (hS2.trans hperm.symm).length_eq
  · rw [hres2, hwalk2]
    simp

/-- Witness for C3: on the tea/coffee table the second call deletes zero
rows. -/
theorem claim_C3_witness :
    (([exA, exB, exC].map Row.id).Nodup)
    ∧ (dedupe_profiles 1 (dedupe_profiles 1 [exA, exB, exC]).2).1.2 = 0 :=
  ⟨by decide, (claim_C3_dedupe_profiles_idempotent [exA, exB, exC] 1 (by decide)).1⟩

/-- Counterexample to C4 as stated: the claim quantifies over every limit
value, but sqlite treats a negative `LIMIT` as "no limit", so `latest(-1)`
on an owner with one row returns one row — not "at most -1 rows". -/
theorem claim_C4_counterexample :
    (latest 1 (-1) [noteRow 1]).length = 1
    ∧ ¬ (((latest 1 (-1) [noteRow 1]).length : Int) ≤ -1) := by
  refine ⟨by decide, ?_⟩
  intro h
  revert h
  decide

/-- Claim C4 (amended to nonnegative limits): for every owner state and
every limit `n ≥ 0`, `latest(n)` returns at most `n` rows, each drawn from
the current owner's rows, in `created_at`-descending order, and returns
fewer than `n` rows exactly when the owner has fewer than `n` rows. -/
theorem claim_C4_latest_amended (t : List Row) (A : Int) (lim : Int)
    (hn : 0 ≤ lim) :
    latest 1 2 [noteRow 1, noteRow 2, noteRow 3]
        = [(3, "note", "x", 3), (2, "note", "x", 3)]
    ∧ (latest A lim t).length ≤ lim.toNat
    ∧ (∀ x ∈ latest A lim t, ∃ r ∈ t, isOwner A r = true
        ∧ x = (r.id, r.kind, r.content, r.importance))
    ∧ (latestRows A lim t).Pairwise createdDesc
    ∧ ((latest A lim t).length < lim.toNat
        ↔ (t.filter (isOwner A)).length < lim.toNat) := by
  have hrows : latestRows A lim t
      = (List.insertionSort createdDesc (t.filter (isOwner A))).take lim.toNat := by
    unfold latestRows
    rw [if_neg (by omega)]
  have hlen : (latest A lim t).length
      = min lim.toNat (t.filter (isOwner A)).length := by
    unfold latest
    rw [List.length_map, hrows, List.length_take,
      (List.perm_insertionSort createdDesc (t.filter (isOwner A))).length_eq]
  refine ⟨by decide, ?_, ?_, ?_, ?_⟩
  · rw [hlen]; omega
  · intro x hx
    rcases List.mem_map.mp hx with ⟨r, hr, rfl⟩
    rw [hrows] at hr
    have hr2 : r ∈ List.insertionSort createdDesc (t.filter (isOwner A)) :=
      List.take_subset _ _ hr
    have hr3 : r ∈ t.filter (isOwner A) :=
      (List.perm_insertionSort createdDesc _).mem_iff.mp hr2
    exact ⟨r, (List.mem_filter.mp hr3).1, (List.mem_filter.mp hr3).2, rfl⟩
  · rw [hrows]
    exact List.Pairwise.sublist (List.take_sublist _ _)
      (List.sorted_insertionSort createdDesc (t.filter (isOwner A)))
  · rw [hlen]; omega

/-- Witness for the amended C4: limit 2 on a three-row owner. -/
theorem claim_C4_witness :
    (0 : Int) ≤ 2
    ∧ latest 1 2 [noteRow 1, noteRow 2, noteRow 3]
        = [(3, "note", "x", 3), (2, "note", "x", 3)] :=
  ⟨by decide, (claim_C4_latest_amended [noteRow 1, noteRow 2, noteRow 3] 1 2 (by decide)).1⟩

/-- A filter and its complement split a list's length. -/
theorem length_filter_split (p : Row → Bool) (t : List Row) :
    (t.filter p).length + (t.filter (fun r => !(p r))).length = t.length := by
  induction t with
  | nil => rfl
  | cons x xs ih =>
    by_cases h : p x <;> simp [List.filter_cons, h, ← ih] <;> omega

/-- Claim C6: `delete_exact(kind, content)` deletes every row of the
current owner whose kind and stored content equal the arguments exactly
(no trimming of the arguments), leaves all other rows unchanged in order,
and returns the number of rows deleted (0 when none match); in particular
the hello/world scenario deletes 2 rows and leaves "world" untouched. -/
theorem claim_C6_delete_exact (t : List Row) (A : Int) (kind content : String) :
    delete_exact 1 "note" "hello" [helloRow 1, helloRow 2, worldRow] = (2, [worldRow])
    ∧ delete_exact 1 "note" " hello " [helloRow 1, helloRow 2, worldRow]
        = (0, [helloRow 1, helloRow 2, worldRow])
    ∧ (delete_exact A kind content t).1 + (delete_exact A kind content t).2.length
        = t.length
    ∧ ((delete_exact A kind content t).2).Sublist t
    ∧ (∀ r ∈ t, (r ∈ (delete_exact A kind content t).2
        ↔ ¬(r.owner_id = A ∧ r.kind = kind ∧ r.content = content)))
    ∧ ((∀ r ∈ t, ¬(r.owner_id = A ∧ r.kind = kind ∧ r.content = content)) →
        (delete_exact A kind content t).1 = 0) := by
  have hpred : ∀ r : Row,
      ((isOwner A r && r.kind == kind && r.content == content) = true)
        ↔ (r.owner_id = A ∧ r.kind = kind ∧ r.content = content) := by
    intro r
    simp [isOwner, Bool.and_eq_true, beq_iff_eq, and_assoc]
  refine ⟨by decide, by decide, ?_, ?_, ?_, ?_⟩
  · exact length_filter_split _ t
  · exact List.filter_sublist t
  · intro r hr
    unfold delete_exact
    simp only [List.mem_filter, hr, true_and, Bool.not_eq_eq_eq_not, Bool.not_true]
    rw [← hpred r]
    exact Bool.eq_false_iff
  · intro hnone
    unfold delete_exact
    have : t.filter (fun r => isOwner A r && r.kind == kind && r.content == content)
        = [] := by
      rw [List.filter_eq_nil_iff]
      intro r hr h
      exact hnone r hr ((hpred r).mp h)
    simp only [this, List.length_nil]

/-- Scenario rows for `format_context`. -/
def noteHi : Row := ⟨1, 1, "note", "hi", "", 3, 100⟩

/-- Scenario rows for `format_context`. -/
def profBob : Row := ⟨2, 1, "profile", "name Bob", "", 5, 101⟩

/-- Claim C7: `format_context(limit)` is the empty string when
`latest(limit)` is empty, and otherwise one rendered line
`- [<kind>][imp:<importance>] <content>` per returned row, in the same
order, joined by newlines. -/
theorem claim_C7_format_context (t : List Row) (A : Int) (lim : Int) :
    format_context 1 20 [noteHi, profBob]
        = "- [profile][imp:5] name Bob\n- [note][imp:3] hi"
    ∧ (latest A lim t = [] → format_context A lim t = "")
    ∧ format_context A lim t = String.intercalate "\n" ((latest A lim t).map renderLine)
    ∧ (∀ i : Nat, ∀ k c : String, ∀ m : Int,
        renderLine (i, k, c, m) = "- [" ++ k ++ "][imp:" ++ toString m ++ "] " ++ c) := by
  refine ⟨by decide, ?_, ?_, ?_⟩
  · intro h
    unfold format_context
    simp [h]
  · unfold format_context
    by_cases h : (latest A lim t).isEmpty
    · rw [if_pos h]
      rw [List.isEmpty_iff] at h
      rw [h]
      rfl
    · rw [if_neg h]
  · intro i k c m
    unfold renderLine
    simp [toString]

/-- Claim C10: `add` stores the kind argument verbatim (no trimming), so
`has_profile` is true exactly when a row with kind exactly `"profile"`
exists for the owner, and adding a row with kind `" profile "` does not
flip `has_profile`. -/
theorem claim_C10_kind_verbatim (t : List Row) (db : DB) (A now imp : Int)
    (k c tg : String) :
    ((add A now k c tg imp db).2.rows.map Row.kind = db.rows.map Row.kind ++ [k])
    ∧ (has_profile A t = true ↔ ∃ r ∈ t, r.owner_id = A ∧ r.kind = "profile")
    ∧ has_profile A (add A now " profile " c tg imp db).2.rows
        = has_profile A db.rows := by
  refine ⟨?_, ?_, ?_⟩
  · unfold add
    simp
  · unfold has_profile
    rw [List.any_eq_true]
    constructor
    · rintro ⟨r, hr, hp⟩
      rw [Bool.and_eq_true, beq_iff_eq] at hp
      exact ⟨r, hr, by simpa [isOwner, beq_iff_eq] using hp.1, hp.2⟩
    · rintro ⟨r, hr, hA, hp⟩
      exact ⟨r, hr, by simp [isOwner, beq_iff_eq, hA, hp]⟩
  · unfold has_profile add
    have hk : ((" profile " : String) == "profile") = false := by decide
    simp [List.any_append, hk]

/-! Helper lemmas for the `MAX(id) GROUP BY` embedding. -/

/-- Bounding a `foldl max`. -/
theorem foldl_max_le_iff (l : List Nat) (a x : Nat) :
    l.foldl max a ≤ x ↔ a ≤ x ∧ ∀ b ∈ l, b ≤ x := by
  induction l generalizing a with
  | nil => simp
  | cons y ys ih =>
    rw [List.foldl_cons, ih]
    constructor
    · rintro ⟨hmax, hall⟩
      refine ⟨le_trans (le_max_left a y) hmax, ?_⟩
      intro b hb
      rcases List.mem_cons.mp hb with hb1 | hb2
      · exact hb1 ▸ le_trans (le_max_right a y) hmax
      · exact hall b hb2
    · rintro ⟨ha, hall⟩
      exact ⟨max_le ha (hall y (List.mem_cons_self _ _)),
        fun b hb => hall b (List.mem_cons_of_mem _ hb)⟩

/-- Every element is below its list's `foldl max`. -/
theorem le_foldl_max (l : List Nat) (a : Nat) : ∀ b ∈ l, b ≤ l.foldl max a :=
  ((foldl_max_le_iff l a _).mp (le_refl _)).2

/-- A `foldl max` is the seed or an element. -/
theorem foldl_max_mem (l : List Nat) (a : Nat) :
    l.foldl max a = a ∨ l.foldl max a ∈ l := by
  induction l generalizing a with
  | nil => exact Or.inl rfl
  | cons y ys ih =>
    rw [List.foldl_cons]
    rcases ih (max a y) with h | h
    · rcases le_total a y with hy | hy
      · rw [h, max_eq_right hy]
        exact Or.inr (List.mem_cons_self _ _)
      · rw [h, max_eq_left hy]
        exact Or.inl rfl
    · exact Or.inr (List.mem_cons_of_mem _ h)

/-- On a nonempty list of identifiers, `foldl max 0` is attained. -/
theorem foldl_max_mem_of_ne_nil {l : List Nat} (h : l ≠ []) : l.foldl max 0 ∈ l := by
  rcases foldl_max_mem l 0 with h0 | hmem
  · rcases l with _ | ⟨y, ys⟩
    · exact absurd rfl h
    · have hy : y ≤ 0 := by
        have := le_foldl_max (y :: ys) 0 y (List.mem_cons_self _ _)
        rwa [h0] at this
      rw [h0]
      have hy0 : y = 0 := Nat.le_zero.mp hy
      exact hy0 ▸ List.mem_cons_self y ys
  · exact hmem

/-- Under distinct identifiers, `r.id` is one of the per-group maxima
exactly when `r` carries the greatest identifier of its own
`(kind, content, tags)` group. -/
theorem groupMaxIds_spec {rs : List Row} (hids : (rs.map Row.id).Nodup)
    {r : Row} (hr : r ∈ rs) :
    (r.id ∈ groupMaxIds rs ↔ ∀ s ∈ rs, dupKey s = dupKey r → s.id ≤ r.id) := by
  constructor
  · intro hmem
    rcases List.mem_map.mp hmem with ⟨k, hk, hfk⟩
    have hne : (rs.filter (fun s => dupKey s == k)).map Row.id ≠ [] := by
      rcases List.mem_map.mp (List.mem_dedup.mp hk) with ⟨u, hu, huk⟩
      have : u ∈ rs.filter (fun s => dupKey s == k) :=
        List.mem_filter.mpr ⟨hu, by simp [huk]⟩
      intro hnil
      rw [List.map_eq_nil_iff.mp hnil] at this
      exact List.not_mem_nil u this
    have hattain := foldl_max_mem_of_ne_nil hne
    rw [hfk] at hattain
    rcases List.mem_map.mp hattain with ⟨s, hs, hsid⟩
    have hseq : s = r :=
      nodup_id_inj hids (List.mem_filter.mp hs).1 hr hsid
    have hkey : k = dupKey r := by
      have := (List.mem_filter.mp hs).2
      rw [hseq] at this
      exact (beq_iff_eq.mp this).symm
    intro s2 hs2 hkey2
    have hs2f : s2 ∈ rs.filter (fun s => dupKey s == k) :=
      List.mem_filter.mpr ⟨hs2, by simp [hkey2, hkey]⟩
    have := le_foldl_max ((rs.filter (fun s => dupKey s == k)).map Row.id) 0
      s2.id (List.mem_map_of_mem Row.id hs2f)
    rwa [hfk] at this
  · intro hmax
    have hk : dupKey r ∈ (rs.map dupKey).dedup :=
      List.mem_dedup.mpr (List.mem_map_of_mem dupKey hr)
    have hrf : r ∈ rs.filter (fun s => dupKey s == dupKey r) :=
      List.mem_filter.mpr ⟨hr, by simp⟩
    have hle : ((rs.filter (fun s => dupKey s == dupKey r)).map Row.id).foldl max 0
        ≤ r.id := by
      rw [foldl_max_le_iff]
      refine ⟨Nat.zero_le _, ?_⟩
      intro b hb
      rcases List.mem_map.mp hb with ⟨s, hs, rfl⟩
      exact hmax s (List.mem_filter.mp hs).1 (beq_iff_eq.mp (List.mem_filter.mp hs).2)
    have hge : r.id
        ≤ ((rs.filter (fun s => dupKey s == dupKey r)).map Row.id).foldl max 0 :=
      le_foldl_max _ 0 r.id (List.mem_map_of_mem Row.id hrf)
    have : ((rs.filter (fun s => dupKey s == dupKey r)).map Row.id).foldl max 0
        = r.id := le_antisymm hle hge
    exact List.mem_map.mpr ⟨dupKey r, hk, this⟩

/-- Counterexample to C2 as stated: the claim covers every optional kind
argument, but Python's `if kind:` treats the given kind `""` as absent, so
`delete_duplicates("")` collapses duplicates across ALL kinds — here it
deletes a row of kind `"note"` (a different kind than the given one) and
returns 1 where the claim demands rows of other kinds stay untouched. -/
theorem claim_C2_counterexample :
    delete_duplicates 1 (some "") [noteRow 1, noteRow 2] = (1, [noteRow 2])
    ∧ (noteRow 1).kind ≠ ""
    ∧ noteRow 1 ∉ (delete_duplicates 1 (some "") [noteRow 1, noteRow 2]).2 := by
  refine ⟨by decide, by decide, by decide⟩

/-- Claim C2 (amended for Python truthiness of the kind argument): within
each distinct `(owner_id, kind, content, tags)` group of the scoped rows,
`delete_duplicates` keeps exactly the row with the greatest identifier and
deletes the others, returning the number of rows deleted; a present
non-empty kind restricts the scope to that kind and leaves rows of every
other kind unchanged, while a missing or empty kind scopes to all the
owner's rows; in the three-note scenario it deletes ids 1 and 2, keeps id
3 and returns 2. -/
theorem claim_C2_delete_duplicates_amended (t : List Row) (A : Int)
    (kindArg : Option String) (hids : (t.map Row.id).Nodup) :
    delete_duplicates 1 (some "note") [noteRow 1, noteRow 2, noteRow 3]
        = (2, [noteRow 3])
    ∧ (delete_duplicates A kindArg t).1 + (delete_duplicates A kindArg t).2.length
        = t.length
    ∧ ((delete_duplicates A kindArg t).2).Sublist t
    ∧ (∀ r ∈ t, dupScope A kindArg r = false → r ∈ (delete_duplicates A kindArg t).2)
    ∧ (∀ r ∈ t, dupScope A kindArg r = true →
        (r ∈ (delete_duplicates A kindArg t).2
          ↔ ∀ s ∈ t, dupScope A kindArg s = true → dupKey s = dupKey r → s.id ≤ r.id))
    ∧ (∀ k : String, kindArg = some k → k ≠ "" → ∀ r ∈ t, r.kind ≠ k →
        r ∈ (delete_duplicates A kindArg t).2) := by
  have hids2 : ((t.filter (dupScope A kindArg)).map Row.id).Nodup :=
    hids.sublist ((List.filter_sublist t).map Row.id)
  have hres2 : (delete_duplicates A kindArg t).2
      = t.filter (fun r => !(dupScope A kindArg r
          && !((groupMaxIds (t.filter (dupScope A kindArg))).contains r.id))) := rfl
  refine ⟨by decide, ?_, ?_, ?_, ?_, ?_⟩
  · exact length_filter_split _ t
  · rw [hres2]
    exact List.filter_sublist t
  · intro r hrt hsc
    rw [hres2]
    refine List.mem_filter.mpr ⟨hrt, ?_⟩
    simp [hsc]
  · intro r hrt hsc
    have hrf : r ∈ t.filter (dupScope A kindArg) := List.mem_filter.mpr ⟨hrt, hsc⟩
    rw [hres2]
    have hmemiff : r ∈ t.filter (fun r => !(dupScope A kindArg r
        && !((groupMaxIds (t.filter (dupScope A kindArg))).contains r.id)))
        ↔ r.id ∈ groupMaxIds (t.filter (dupScope A kindArg)) := by
      rw [List.mem_filter]
      simp [hrt, hsc, List.contains, List.elem_eq_mem]
    rw [hmemiff, groupMaxIds_spec hids2 hrf]
    constructor
    · intro h s hst hssc hkey
      exact h s (List.mem_filter.mpr ⟨hst, hssc⟩) hkey
    · intro h s hsf hkey
      exact h s (List.mem_filter.mp hsf).1 (List.mem_filter.mp hsf).2 hkey
  · intro k hkarg hkne r hrt hrkind
    rw [hres2]
    refine List.mem_filter.mpr ⟨hrt, ?_⟩
    have hsc : dupScope A kindArg r = false := by
      rw [hkarg]
      show (if k = "" then isOwner A else fun r => isOwner A r && r.kind == k) r = false
      rw [if_neg hkne]
      have hb : (r.kind == k) = false := beq_eq_false_iff_ne.mpr hrkind
      simp [hb]
    simp [hsc]

/-- Witness for the amended C2: the three-note scenario. -/
theorem claim_C2_witness :
    (([noteRow 1, noteRow 2, noteRow 3].map Row.id).Nodup)
    ∧ delete_duplicates 1 (some "note") [noteRow 1, noteRow 2, noteRow 3]
        = (2, [noteRow 3]) :=
  ⟨by decide, (claim_C2_delete_duplicates_amended [noteRow 1, noteRow 2, noteRow 3]
    1 (some "note") (by decide)).1⟩

/-- Claim C8: sequential `add` calls return strictly increasing
identifiers; under the AUTOINCREMENT invariant the returned identifier is
fresh (never equal to any stored identifier, even after deletions, since
deletions keep the counter), the invariant is preserved by `add` and by
every deleting operation, and `add` preserves distinctness of the stored
identifiers. -/
theorem claim_C8_identifiers (db : DB) (h : GoodDB db)
    (A1 A2 A3 now1 now2 imp1 imp2 : Int) (k1 c1 tg1 k2 c2 tg2 : String)
    (kindArg : Option String) (kx cx : String) :
    (add A1 now1 k1 c1 tg1 imp1 db).1
        < (add A2 now2 k2 c2 tg2 imp2 (add A1 now1 k1 c1 tg1 imp1 db).2).1
    ∧ (∀ r ∈ db.rows, r.id ≠ (add A1 now1 k1 c1 tg1 imp1 db).1)
    ∧ GoodDB (add A1 now1 k1 c1 tg1 imp1 db).2
    ∧ ((db.rows.map Row.id).Nodup →
        ((add A1 now1 k1 c1 tg1 imp1 db).2.rows.map Row.id).Nodup)
    ∧ GoodDB ⟨(dedupe_profiles A3 db.rows).2, db.next_id⟩
    ∧ GoodDB ⟨(delete_profiles A3 db.rows).2, db.next_id⟩
    ∧ GoodDB ⟨(delete_duplicates A3 kindArg db.rows).2, db.next_id⟩
    ∧ GoodDB ⟨(delete_exact A3 kx cx db.rows).2, db.next_id⟩ := by
  have hid1 : (add A1 now1 k1 c1 tg1 imp1 db).1 = db.next_id := rfl
  have hrows1 : (add A1 now1 k1 c1 tg1 imp1 db).2.rows
      = db.rows ++ [⟨db.next_id, A1, k1, strip c1, strip tg1, imp1, now1⟩] := rfl
  have hnext1 : (add A1 now1 k1 c1 tg1 imp1 db).2.next_id = db.next_id + 1 := rfl
  refine ⟨?_, ?_, ?_, ?_, ?_, ?_, ?_, ?_⟩
  · show (add A1 now1 k1 c1 tg1 imp1 db).1
      < (add A1 now1 k1 c1 tg1 imp1 db).2.next_id
    rw [hid1, hnext1]
    omega
  · intro r hr
    rw [hid1]
    exact Nat.ne_of_lt (h r hr)
  · intro r hr
    rw [hnext1]
    rw [hrows1] at hr
    rcases List.mem_append.mp hr with hold | hnew
    · exact Nat.lt_succ_of_lt (h r hold)
    · rw [List.mem_singleton.mp hnew]
      exact Nat.lt_succ_self _
  · intro hnd
    rw [hrows1, List.map_append]
    rw [List.nodup_append]
    refine ⟨hnd, List.nodup_singleton _, ?_⟩
    intro a ha hb
    rcases List.mem_map.mp ha with ⟨r, hr, rfl⟩
    simp only [List.map_cons, List.map_nil, List.mem_singleton] at hb
    exact Nat.ne_of_lt (h r hr) hb
  · intro r hr
    have : r ∈ db.rows := (List.mem_filter.mp hr).1
    exact h r this
  · intro r hr
    exact h r (List.mem_filter.mp hr).1
  · intro r hr
    exact h r (List.mem_filter.mp hr).1
  · intro r hr
    exact h r (List.mem_filter.mp hr).1

/-- Witness for C8: two adds on a one-row store return 2 then 3. -/
theorem claim_C8_witness :
    GoodDB ⟨[noteRow 1], 2⟩
    ∧ (add 1 200 "note" "y" "" 3 ⟨[noteRow 1], 2⟩).1
        < (add 1 201 "note" "z" "" 3 (add 1 200 "note" "y" "" 3 ⟨[noteRow 1], 2⟩).2).1 := by
  have hg : GoodDB ⟨[noteRow 1], 2⟩ := by
    intro r hr
    rw [List.mem_singleton.mp hr]
    decide
  exact ⟨hg, (claim_C8_identifiers ⟨[noteRow 1], 2⟩ hg 1 1 1 200 201 3 3 "note" "y" ""
    "note" "z" "" none "" "").1⟩

/-! Helper lemmas for cross-owner isolation. -/

/-- A row owned by `A` is not owned by a different `B`. -/
theorem isOwner_of_ne {A B : Int} (hAB : A ≠ B) {r : Row}
    (h : isOwner A r = true) : isOwner B r = false := by
  rw [isOwner, beq_iff_eq] at h
  exact beq_eq_false_iff_ne.mpr (fun hB => hAB (h.symm.trans hB))

/-- The profile predicate implies ownership. -/
theorem isProfileOf_owner {A : Int} {r : Row}
    (h : isProfileOf A r = true) : isOwner A r = true :=
  Bool.and_elim_left h

/-- The `delete_duplicates` scope implies ownership. -/
theorem dupScope_owner {A : Int} {kd : Option String} {r : Row}
    (h : dupScope A kd r = true) : isOwner A r = true := by
  cases kd with
  | none => exact h
  | some k =>
    have h2 : (if k = "" then isOwner A
        else fun r => isOwner A r && r.kind == k) r = true := h
    by_cases hk : k = ""
    · rw [if_pos hk] at h2
      exact h2
    · rw [if_neg hk] at h2
      exact Bool.and_elim_left h2

/-- The `delete_exact` match predicate implies ownership. -/
theorem hit_owner {A : Int} {kx cx : String} {r : Row}
    (h : (isOwner A r && r.kind == kx && r.content == cx) = true) :
    isOwner A r = true :=
  Bool.and_elim_left (Bool.and_elim_left h)

/-- A predicate entailing ownership by `A` fails on rows of a different
owner `B`. -/
theorem pred_false_of_ownerB {A B : Int} (hAB : A ≠ B) {p : Row → Bool}
    (hp : ∀ r, p r = true → isOwner A r = true) (r : Row)
    (hB : isOwner B r = true) : p r = false := by
  cases hpr : p r
  · rfl
  · have hf := isOwner_of_ne hAB (hp r hpr)
    rw [hf] at hB
    exact absurd hB Bool.false_ne_true

/-- Removing rows that a predicate can never select does not change the
filter by that predicate. -/
theorem filter_drop_other {p q : Row → Bool} (t : List Row)
    (himp : ∀ r, p r = true → q r = false) :
    (t.filter (fun r => !(q r))).filter p = t.filter p := by
  rw [List.filter_filter]
  apply List.filter_congr
  intro r _
  cases hp : p r
  · simp
  · simp [himp r hp]

/-- Filtering by a predicate that holds on all of owner `B`'s rows keeps
owner `B`'s rows intact. -/
theorem filterB_of_pred {B : Int} {pred : Row → Bool} (t : List Row)
    (hkeep : ∀ r ∈ t, isOwner B r = true → pred r = true) :
    (t.filter pred).filter (isOwner B) = t.filter (isOwner B) := by
  rw [List.filter_filter]
  apply List.filter_congr
  intro r hr
  cases hB : isOwner B r
  · simp
  · simp [hkeep r hr hB]

/-- Claim C5: every operation of the public surface, run for owner `A`,
computes its result from owner `A`'s rows alone (removing a different
owner `B`'s rows does not change it) and leaves owner `B`'s rows
unchanged. -/
theorem claim_C5_isolation (t : List Row) (db : DB) (A B : Int) (hAB : A ≠ B)
    (hids : (t.map Row.id).Nodup) (now lim imp : Int) (k c tg kx cx : String)
    (kd : Option String) :
    ((add A now k c tg imp db).2.rows.filter (isOwner B) = db.rows.filter (isOwner B))
    ∧ latest A lim t = latest A lim (t.filter (fun r => !(isOwner B r)))
    ∧ format_context A lim t = format_context A lim (t.filter (fun r => !(isOwner B r)))
    ∧ has_profile A t = has_profile A (t.filter (fun r => !(isOwner B r)))
    ∧ (dedupe_profiles A t).1 = (dedupe_profiles A (t.filter (fun r => !(isOwner B r)))).1
    ∧ (dedupe_profiles A t).2.filter (isOwner B) = t.filter (isOwner B)
    ∧ (delete_profiles A t).1 = (delete_profiles A (t.filter (fun r => !(isOwner B r)))).1
    ∧ (delete_profiles A t).2.filter (isOwner B) = t.filter (isOwner B)
    ∧ (delete_duplicates A kd t).1
        = (delete_duplicates A kd (t.filter (fun r => !(isOwner B r)))).1
    ∧ (delete_duplicates A kd t).2.filter (isOwner B) = t.filter (isOwner B)
    ∧ (delete_exact A kx cx t).1
        = (delete_exact A kx cx (t.filter (fun r => !(isOwner B r)))).1
    ∧ (delete_exact A kx cx t).2.filter (isOwner B) = t.filter (isOwner B) := by
  have hOwn : ∀ r : Row, isOwner A r = true → isOwner B r = false :=
    fun r h => isOwner_of_ne hAB h
  have hNoA : (t.filter (fun r => !(isOwner B r))).filter (isOwner A)
      = t.filter (isOwner A) := filter_drop_other t hOwn
  have hProfF : (t.filter (fun r => !(isOwner B r))).filter (isProfileOf A)
      = t.filter (isProfileOf A) :=
    filter_drop_other t (fun r h => hOwn r (isProfileOf_owner h))
  have hlat : latest A lim t = latest A lim (t.filter (fun r => !(isOwner B r))) := by
    unfold latest latestRows
    rw [hNoA]
  refine ⟨?_, hlat, ?_, ?_, ?_, ?_, ?_, ?_, ?_, ?_, ?_, ?_⟩
  · show (db.rows ++ [(⟨db.next_id, A, k, strip c, strip tg, imp, now⟩ : Row)]).filter (isOwner B)
      = db.rows.filter (isOwner B)
    rw [List.filter_append]
    have hBnew : isOwner B (⟨db.next_id, A, k, strip c, strip tg, imp, now⟩ : Row)
        = false := beq_eq_false_iff_ne.mpr hAB
    simp [List.filter_cons, hBnew]
  · unfold format_context
    rw [hlat]
  · unfold has_profile
    rw [List.any_filter]
    congr 1
    funext r
    cases hp : (isOwner A r && r.kind == "profile")
    · simp [hp]
    · have hB := hOwn r (Bool.and_elim_left hp)
      simp [hp, hB]
  · have hsp : sortedProfiles A (t.filter (fun r => !(isOwner B r)))
        = sortedProfiles A t := by
      unfold sortedProfiles
      rw [hProfF]
    show ((dedupeWalk (sortedProfiles A t) []).1.length,
        (dedupeWalk (sortedProfiles A t) []).2.length)
      = ((dedupeWalk (sortedProfiles A (t.filter (fun r => !(isOwner B r)))) []).1.length,
        (dedupeWalk (sortedProfiles A (t.filter (fun r => !(isOwner B r)))) []).2.length)
    rw [hsp]
  · show (t.filter (fun r =>
        !(((dedupeWalk (sortedProfiles A t) []).2.map Row.id).contains r.id))).filter
          (isOwner B) = t.filter (isOwner B)
    apply filterB_of_pred
    intro r hr hB
    have hnot : r.id ∉ (dedupeWalk (sortedProfiles A t) []).2.map Row.id := by
      intro hmem
      rcases List.mem_map.mp hmem with ⟨s, hs, hsid⟩
      have hst : s ∈ t := sortedProfiles_subset (dedupeWalk_delete_mem hs)
      have hseq : s = r := nodup_id_inj hids hst hr hsid
      have hsp : isProfileOf A s = true :=
        sortedProfiles_profile (dedupeWalk_delete_mem hs)
      have hf : isOwner B s = false := hOwn s (isProfileOf_owner hsp)
      rw [hseq] at hf
      rw [hf] at hB
      exact Bool.false_ne_true hB
    simp [List.contains, List.elem_eq_mem, hnot]
  · show (t.filter (isProfileOf A)).length
      = ((t.filter (fun r => !(isOwner B r))).filter (isProfileOf A)).length
    rw [hProfF]
  · show (t.filter (fun r => !(isProfileOf A r))).filter (isOwner B)
      = t.filter (isOwner B)
    apply filterB_of_pred
    intro r hr hB
    have := pred_false_of_ownerB hAB (fun r h => isProfileOf_owner h) r hB
    simp [this]
  · have hscopeF : (t.filter (fun r => !(isOwner B r))).filter (dupScope A kd)
        = t.filter (dupScope A kd) :=
      filter_drop_other t (fun r h => hOwn r (dupScope_owner h))
    show (t.filter (fun r => dupScope A kd r
        && !((groupMaxIds (t.filter (dupScope A kd))).contains r.id))).length
      = ((t.filter (fun r => !(isOwner B r))).filter (fun r => dupScope A kd r
        && !((groupMaxIds ((t.filter (fun r => !(isOwner B r))).filter
            (dupScope A kd))).contains r.id))).length
    rw [hscopeF]
    rw [@filter_drop_other (fun r => dupScope A kd r
      && !((groupMaxIds (t.filter (dupScope A kd))).contains r.id)) (isOwner B) t
      (fun r h => hOwn r (dupScope_owner (Bool.and_elim_left h)))]
  · show (t.filter (fun r => !(dupScope A kd r
        && !((groupMaxIds (t.filter (dupScope A kd))).contains r.id)))).filter (isOwner B)
      = t.filter (isOwner B)
    apply filterB_of_pred
    intro r hr hB
    have hd := @pred_false_of_ownerB A B hAB (fun r => dupScope A kd r
      && !((groupMaxIds (t.filter (dupScope A kd))).contains r.id))
      (fun r h => dupScope_owner (Bool.and_elim_left h)) r hB
    have h2 : (dupScope A kd r
        && !((groupMaxIds (t.filter (dupScope A kd))).contains r.id)) = false := hd
    rcases Bool.and_eq_false_iff.mp h2 with hone | htwo
    · simp [hone]
    · have hc : (groupMaxIds (t.filter (dupScope A kd))).contains r.id = true := by
        cases hcc : (groupMaxIds (t.filter (dupScope A kd))).contains r.id
        · rw [hcc] at htwo
          exact absurd htwo (by simp)
        · rfl
      simp [List.elem_iff.mp hc]
  · show (t.filter (fun r => isOwner A r && r.kind == kx && r.content == cx)).length
      = ((t.filter (fun r => !(isOwner B r))).filter
          (fun r => isOwner A r && r.kind == kx && r.content == cx)).length
    rw [filter_drop_other t (fun r h => hOwn r (hit_owner h))]
  · show (t.filter (fun r =>
        !(isOwner A r && r.kind == kx && r.content == cx))).filter (isOwner B)
      = t.filter (isOwner B)
    apply filterB_of_pred
    intro r hr hB
    have hd := @pred_false_of_ownerB A B hAB
      (fun r => isOwner A r && r.kind == kx && r.content == cx)
      (fun r h => hit_owner h) r hB
    have h2 : (isOwner A r && r.kind == kx && r.content == cx) = false := hd
    show (!(isOwner A r && r.kind == kx && r.content == cx)) = true
    rw [h2]
    rfl

/-- Scenario row of a second owner, used by the isolation witness. -/
def otherOwnerRow : Row := ⟨2, 2, "note", "b", "", 3, 101⟩

/-- Witness for C5: owners 1 and 2 on a two-row table. -/
theorem claim_C5_witness :
    ((1 : Int) ≠ 2 ∧ (([noteRow 1, otherOwnerRow].map Row.id).Nodup))
    ∧ latest 1 5 [noteRow 1, otherOwnerRow]
        = latest 1 5 ([noteRow 1, otherOwnerRow].filter (fun r => !(isOwner 2 r))) :=
  ⟨⟨by decide, by decide⟩,
    (claim_C5_isolation [noteRow 1, otherOwnerRow] ⟨[], 1⟩ 1 2 (by decide) (by decide)
      100 5 3 "note" "c" "" "note" "x" none).2.1⟩

end MemoryBot
